import Mathlib

/-!
Verification development for the `storage` crate: a shallow embedding of the
Store interface default methods, the inline store backends, the fixed-capacity
`ConcurrentVec`, and the probabilistic `SkipList`, together with proofs and
refutations of the specified properties.

Machine integers of the source are modelled as `Nat`/`Int` (no overflow is
reachable at the sizes involved: lengths are bounded by capacities and node
counts, far below `isize::MAX`). Handles of the `Global`-allocator-backed
storage are modelled as indices into an append-only heap list; a `debug_assert`
abort and a panic are modelled as an `Except.error`; resolving a dangling or
deallocated handle (undefined behaviour in the source) is modelled as
`Except.error .ub`.
-/

namespace Storage

/-- Layout: a (size, alignment) pair, as in `core::alloc::Layout`. -/
structure Layout where
  size : Nat
  align : Nat
deriving DecidableEq

/-!
## ConcurrentVec, single-threaded model (src/collection/concurrent_vec.rs)

The state mirrors `ConcurrentVec<T, S>`: the atomic `length : AtomicIsize`
(initial value 1), the backing block of `capacity` slots (a slot is `none`
while uninitialized), and the capacity recorded in the unique handle's
metadata (`Inner::capacity = handle.len()`).

`push` is modelled for a single-threaded caller: the initial Acquire load
returns the current value, and when that value is positive and within
capacity the `compare_exchange_weak` succeeds on the first attempt (no other
thread can interfere).  A negative `length` at entry would make the source
spin forever in a single-threaded run; that branch is modelled by the
`wouldSpin` outcome and is proved unreachable under the structure's invariant
(`length ≥ 1` whenever no push is in progress).
-/

structure CVec (T : Type) where
  length : Int
  cap : Nat
  slots : List (Option T)
deriving DecidableEq

/-- Outcome of `ConcurrentVec::push`: `ok` is `Ok(())` with the new state,
`full` is `Err(element)` (the untouched state and the rejected element),
`wouldSpin` marks the single-threaded dead branch `length < 0`. -/
inductive PushResult (T : Type) where
  | ok (s : CVec T)
  | full (s : CVec T) (rejected : T)
  | wouldSpin
deriving DecidableEq

/-- `ConcurrentVec::with_store(capacity, store)`: `length` starts at `1`,
the backing block holds `capacity` uninitialized slots. -/
def CVec.new (T : Type) (cap : Nat) : CVec T :=
  ⟨1, cap, List.replicate cap none⟩

/-- `ConcurrentVec::len`: `(self.length.load(Acquire).abs() - 1) as usize`. -/
def CVec.len (s : CVec T) : Nat :=
  s.length.natAbs - 1

/-- `ConcurrentVec::capacity`: the capacity recorded in the handle metadata. -/
def CVec.capacity (s : CVec T) : Nat :=
  s.cap

/-- `ConcurrentVec::as_slice`: the initialized elements, `slots[0 .. len())`. -/
def CVec.asSlice (s : CVec T) : List T :=
  (s.slots.take s.len).filterMap id

/-- `ConcurrentVec::push(element)` for a single-threaded caller, following the
source: first the capacity check on the loaded `length` (`unsigned_abs() >
capacity` fails, returning the element), then the sign check, then the CAS
(which succeeds at once single-threaded), the slot write at `length - 1`, and
the Release store of `length + 1`. -/
def CVec.push (s : CVec T) (x : T) : PushResult T :=
  if s.length.natAbs > s.cap then
    .full s x
  else if s.length < 0 then
    .wouldSpin
  else
    .ok { s with
          slots := s.slots.set (s.length.toNat - 1) (some x),
          length := s.length + 1 }

/-- Pushing a list of elements in order, stopping at the first failure. -/
def CVec.pushAll (s : CVec T) (xs : List T) : Option (CVec T) :=
  match xs with
  | [] => some s
  | x :: rest =>
    match s.push x with
    | .ok s1 => s1.pushAll rest
    | _ => none

/-- The state after `ys` successful pushes into a fresh vector of capacity
`cap`: `length = ys.length + 1`, the first `ys.length` slots hold `ys`. -/
def CVec.fillState (T : Type) (cap : Nat) (ys : List T) : CVec T :=
  ⟨(ys.length : Int) + 1, cap, ys.map some ++ List.replicate (cap - ys.length) none⟩

theorem CVec.new_eq_mk (T : Type) (cap : Nat) : CVec.new T cap = CVec.fillState T cap [] := by
  simp [CVec.new, CVec.fillState]

theorem set_map_some_append (ys : List T) (x : T) (k : Nat) :
    (ys.map some ++ List.replicate (k + 1) none).set ys.length (some x)
      = (ys ++ [x]).map some ++ List.replicate k none := by
  induction ys with
  | nil => simp [List.replicate_succ]
  | cons y t ih => simp [List.set, ih]

theorem CVec.push_mk_of_lt (cap : Nat) (ys : List T) (x : T) (h : ys.length < cap) :
    (CVec.fillState T cap ys).push x = .ok (CVec.fillState T cap (ys ++ [x])) := by
  have h1 : ((ys.length : Int) + 1).natAbs = ys.length + 1 := by
    omega
  have h2 : ¬ ((ys.length : Int) + 1).natAbs > cap := by omega
  have h3 : ¬ ((ys.length : Int) + 1) < 0 := by omega
  have h4 : ((ys.length : Int) + 1).toNat - 1 = ys.length := by omega
  have h5 : cap - ys.length = (cap - (ys.length + 1)) + 1 := by omega
  simp only [CVec.push, CVec.fillState, h2, if_false, h3, h4]
  rw [h5, set_map_some_append]
  simp

theorem CVec.push_mk_of_full (cap : Nat) (ys : List T) (x : T) (h : ys.length = cap) :
    (CVec.fillState T cap ys).push x = .full (CVec.fillState T cap ys) x := by
  have h2 : ((ys.length : Int) + 1).natAbs > cap := by omega
  simp only [CVec.push, CVec.fillState, h2, if_true]

theorem CVec.pushAll_mk (cap : Nat) (ys xs : List T) (h : ys.length + xs.length ≤ cap) :
    (CVec.fillState T cap ys).pushAll xs = some (CVec.fillState T cap (ys ++ xs)) := by
  induction xs generalizing ys with
  | nil => simp [CVec.pushAll]
  | cons x rest ih =>
    have hlt : ys.length < cap := by simp at h; omega
    have hrec := ih (ys ++ [x]) (by simp at h ⊢; omega)
    simp only [CVec.pushAll, CVec.push_mk_of_lt cap ys x hlt]
    rw [hrec]
    simp

theorem CVec.fillState_len (cap : Nat) (ys : List T) : (CVec.fillState T cap ys).len = ys.length := by
  simp [CVec.fillState, CVec.len]
  omega

theorem filterMap_id_map_some (ys : List T) : (List.map some ys).filterMap id = ys := by
  induction ys with
  | nil => rfl
  | cons y t ih => simp [List.filterMap_cons, ih]

theorem CVec.fillState_asSlice (cap : Nat) (ys : List T) :
    (CVec.fillState T cap ys).asSlice = ys := by
  have hl : (CVec.fillState T cap ys).len = ys.length := CVec.fillState_len cap ys
  simp only [CVec.asSlice, hl]
  show ((List.map some ys ++ List.replicate (cap - ys.length) none).take ys.length).filterMap id = ys
  rw [List.take_append_of_le_length (by simp)]
  rw [show ys.length = (List.map some ys).length by simp, List.take_length,
    filterMap_id_map_some]

/-- C2: for a fresh `ConcurrentVec` of capacity `c`, any `c` pushes all
succeed; the `(c+1)`-th push returns `Err` carrying exactly the value passed
in and leaves the state (hence `len()`) untouched. -/
theorem concurrentVec_capacity (T : Type) (c : Nat) (xs : List T) (x : T)
    (h : xs.length = c) :
    ∃ s1 : CVec T,
      (CVec.new T c).pushAll xs = some s1 ∧
      s1.len = c ∧
      s1.push x = .full s1 x := by
  refine ⟨CVec.fillState T c xs, ?_, ?_, ?_⟩
  · rw [CVec.new_eq_mk]
    simpa using CVec.pushAll_mk c [] xs (by simp [h])
  · rw [CVec.fillState_len c xs, h]
  · exact CVec.push_mk_of_full c xs x h

theorem concurrentVec_capacity_witness :
    ∃ s1 : CVec Nat,
      (CVec.new Nat 2).pushAll [10, 20] = some s1 ∧
      s1.len = 2 ∧
      s1.push 30 = .full s1 30 :=
  concurrentVec_capacity Nat 2 [10, 20] 30 (by decide)

/-- C6: pushing `"0"`, `"1"`, `"2"` into a fresh `ConcurrentVec` of capacity
42 yields `as_slice() == ["0","1","2"]`, `len() == 3`, `capacity() == 42`;
and in general a successful push writes its value into the slot at index
`length - 1` and stores `length + 1`, so the initialized prefix holds the
pushed values in push order. -/
theorem concurrentVec_push_contents (c : Nat) (xs : List T)
    (hle : xs.length ≤ c) :
    ((CVec.new String 42).pushAll ["0", "1", "2"] =
        some (CVec.fillState String 42 ["0", "1", "2"]) ∧
      (CVec.fillState String 42 ["0", "1", "2"]).asSlice = ["0", "1", "2"] ∧
      (CVec.fillState String 42 ["0", "1", "2"]).len = 3 ∧
      (CVec.fillState String 42 ["0", "1", "2"]).capacity = 42) ∧
    (∀ (s : CVec T) (x : T), s.length = (s.len : Int) + 1 → s.len < s.cap →
      s.push x = .ok { s with
        slots := s.slots.set (s.length.toNat - 1) (some x),
        length := s.length + 1 }) ∧
    ∃ s1 : CVec T, (CVec.new T c).pushAll xs = some s1 ∧ s1.asSlice = xs ∧
      s1.len = xs.length := by
  refine ⟨⟨?_, ?_, ?_, rfl⟩, ?_, ?_⟩
  · rw [CVec.new_eq_mk]
    simpa using CVec.pushAll_mk 42 [] ["0", "1", "2"] (by decide)
  · exact CVec.fillState_asSlice 42 ["0", "1", "2"]
  · exact CVec.fillState_len 42 ["0", "1", "2"]
  · intro s x hlen hcap
    have h1 : ¬ s.length.natAbs > s.cap := by omega
    have h2 : ¬ s.length < 0 := by omega
    simp only [CVec.push, h1, if_false, h2]
  · refine ⟨CVec.fillState T c xs, ?_, CVec.fillState_asSlice c xs,
      CVec.fillState_len c xs⟩
    rw [CVec.new_eq_mk]
    simpa using CVec.pushAll_mk c [] xs (by simpa using hle)

theorem concurrentVec_push_contents_witness :
    ([(3 : Nat), 4].length ≤ 2) ∧
    (((CVec.new String 42).pushAll ["0", "1", "2"] =
        some (CVec.fillState String 42 ["0", "1", "2"]) ∧
      (CVec.fillState String 42 ["0", "1", "2"]).asSlice = ["0", "1", "2"] ∧
      (CVec.fillState String 42 ["0", "1", "2"]).len = 3 ∧
      (CVec.fillState String 42 ["0", "1", "2"]).capacity = 42) ∧
    (∀ (s : CVec Nat) (x : Nat), s.length = (s.len : Int) + 1 → s.len < s.cap →
      s.push x = .ok { s with
        slots := s.slots.set (s.length.toNat - 1) (some x),
        length := s.length + 1 }) ∧
    ∃ s1 : CVec Nat, (CVec.new Nat 2).pushAll [3, 4] = some s1 ∧
      s1.asSlice = [3, 4] ∧ s1.len = [(3 : Nat), 4].length) :=
  ⟨by decide, concurrentVec_push_contents 2 [3, 4] (by decide)⟩

/-!
## Model store and the default `Store::grow` / `Store::grow_zeroed`
(src/interface.rs)

The default method bodies of `Store::grow` and `Store::grow_zeroed` are
written against the abstract operations `allocate`, `resolve`,
`copy_nonoverlapping`, `write_bytes` and `deallocate`.  `MStore` is a model
store satisfying the Store contract (handles are indices into an append-only
block list, an allocation fails when the request exceeds the remaining
budget, and fresh memory is filled with a junk byte); the default bodies are
transcribed over it line by line.
-/

structure MStore where
  blocks : List (Option (List Nat))
  avail : Nat
deriving DecidableEq

/-- The unspecified content of freshly allocated memory. -/
def junkByte : Nat := 171

/-- `Store::allocate(layout)`: a fresh handle and the actual size, or
`AllocError` when the budget is exhausted. -/
def MStore.allocate (s : MStore) (layout : Layout) : Option ((Nat × Nat) × MStore) :=
  if layout.size ≤ s.avail then
    some ((s.blocks.length, layout.size),
      ⟨s.blocks ++ [some (List.replicate layout.size junkByte)], s.avail - layout.size⟩)
  else
    none

/-- `Store::resolve(handle)` followed by reading the block's bytes. -/
def MStore.resolveRead (s : MStore) (handle : Nat) : Option (List Nat) :=
  (s.blocks.get? handle).bind id

/-- Writing bytes through a resolved pointer. -/
def MStore.writeBlock (s : MStore) (handle : Nat) (bytes : List Nat) : MStore :=
  ⟨s.blocks.set handle (some bytes), s.avail⟩

/-- `Store::deallocate(handle, layout)`. -/
def MStore.deallocate (s : MStore) (handle : Nat) : MStore :=
  ⟨s.blocks.set handle none, s.avail⟩

/-- `ptr::copy_nonoverlapping(src, dst, count)`, effect on the destination
block. -/
def copyNonoverlapping (src dst : List Nat) (count : Nat) : List Nat :=
  src.take count ++ dst.drop count

/-- `ptr::write_bytes(dst + off, v, count)`, effect on the block. -/
def writeBytes (dst : List Nat) (off count v : Nat) : List Nat :=
  dst.take off ++ List.replicate count v ++ dst.drop (off + count)

/-- Default `Store::grow` body (interface.rs:111-153): allocate `new_layout`,
resolve both handles, `copy_nonoverlapping` the first `old_layout.size()`
bytes, deallocate the old handle. -/
def MStore.grow (s : MStore) (handle : Nat) (oldL newL : Layout) :
    Option ((Nat × Nat) × MStore) :=
  match s.allocate newL with
  | none => none
  | some ((newHandle, newSize), s1) =>
    match s1.resolveRead handle, s1.resolveRead newHandle with
    | some currentBytes, some newBytes =>
      let s2 := s1.writeBlock newHandle (copyNonoverlapping currentBytes newBytes oldL.size)
      some ((newHandle, newSize), s2.deallocate handle)
    | _, _ => none

/-- Default `Store::grow_zeroed` body (interface.rs:254-284): `grow`, then
`write_bytes(ptr + old_layout.size(), 0, new_size - old_layout.size())`. -/
def MStore.growZeroed (s : MStore) (handle : Nat) (oldL newL : Layout) :
    Option ((Nat × Nat) × MStore) :=
  match s.grow handle oldL newL with
  | none => none
  | some ((newHandle, newSize), s1) =>
    match s1.resolveRead newHandle with
    | some bytes =>
      some ((newHandle, newSize),
        s1.writeBlock newHandle (writeBytes bytes oldL.size (newSize - oldL.size) 0))
    | none => none

theorem MStore.resolveRead_lt (s : MStore) (h : Nat) (b : List Nat)
    (hb : s.resolveRead h = some b) : h < s.blocks.length := by
  by_contra hge
  have hnone : s.blocks.get? h = none := List.get?_eq_none.mpr (by omega)
  unfold MStore.resolveRead at hb
  rw [hnone] at hb
  simp at hb

theorem MStore.resolveRead_some (s : MStore) (h : Nat) (b : List Nat)
    (hb : s.resolveRead h = some b) : s.blocks.get? h = some (some b) := by
  unfold MStore.resolveRead at hb
  rcases ho : s.blocks.get? h with _ | o
  · rw [ho] at hb
    simp at hb
  · rw [ho] at hb
    rcases o with _ | bytes
    · simp at hb
    · simp at hb
      rw [hb]

theorem MStore.grow_eq (s : MStore) (h : Nat) (oldL newL : Layout) (b : List Nat)
    (hb : s.resolveRead h = some b) (halloc : newL.size ≤ s.avail) :
    s.grow h oldL newL =
      some ((s.blocks.length, newL.size),
        ⟨((s.blocks ++ [some (List.replicate newL.size junkByte)]).set s.blocks.length
            (some (copyNonoverlapping b (List.replicate newL.size junkByte) oldL.size))).set
            h none,
          s.avail - newL.size⟩) := by
  have hlt : h < s.blocks.length := s.resolveRead_lt h b hb
  have h1 : (s.blocks ++ [some (List.replicate newL.size junkByte)]).get? h = s.blocks.get? h :=
    List.get?_append hlt
  have h2 : (s.blocks ++ [some (List.replicate newL.size junkByte)]).get? s.blocks.length
      = some (some (List.replicate newL.size junkByte)) :=
    List.get?_concat_length s.blocks _
  have hsome := s.resolveRead_some h b hb
  simp only [MStore.grow, MStore.allocate, halloc, if_true, MStore.resolveRead, h1, h2,
    hsome, Option.bind_some, id_def]
  simp [MStore.writeBlock, MStore.deallocate]

theorem copyNonoverlapping_get (src dst : List Nat) (count i : Nat)
    (hi : i < count) (hle : count ≤ src.length) :
    (copyNonoverlapping src dst count).get? i = src.get? i := by
  unfold copyNonoverlapping
  have hlen : (src.take count).length = count := by
    simp [List.length_take]
    omega
  rw [List.get?_append (by omega), List.get?_take hi]

/-- C3: the default `Store::grow` preserves the first `old_layout.size()`
bytes of the block, and the default `Store::grow_zeroed` additionally
zero-fills bytes `[old_layout.size(), returned_size)` of the new block. -/
theorem store_grow_byte_preservation (s : MStore) (h : Nat) (oldL newL : Layout)
    (b : List Nat) (hb : s.resolveRead h = some b)
    (hfit : oldL.size ≤ b.length) (hsz : oldL.size ≤ newL.size)
    (halloc : newL.size ≤ s.avail) :
    (∃ nh nsz s2 nb,
      s.grow h oldL newL = some ((nh, nsz), s2) ∧
      s2.resolveRead nh = some nb ∧
      (∀ i, i < oldL.size → nb.get? i = b.get? i)) ∧
    (∃ nh nsz s3 zb,
      s.growZeroed h oldL newL = some ((nh, nsz), s3) ∧
      s3.resolveRead nh = some zb ∧
      (∀ i, i < oldL.size → zb.get? i = b.get? i) ∧
      (∀ i, oldL.size ≤ i → i < nsz → zb.get? i = some 0)) := by
  have hlt : h < s.blocks.length := s.resolveRead_lt h b hb
  have hgrow := s.grow_eq h oldL newL b hb halloc
  set nb := copyNonoverlapping b (List.replicate newL.size junkByte) oldL.size with hnb
  have hnblen : nb.length = newL.size := by
    simp [hnb, copyNonoverlapping, List.length_take]
    omega
  have hne : h ≠ s.blocks.length := by omega
  have hread : ∀ t : MStore,
      t.blocks = ((s.blocks ++ [some (List.replicate newL.size junkByte)]).set s.blocks.length
          (some nb)).set h none →
      t.resolveRead s.blocks.length = some nb := by
    intro t ht
    have e1 : t.blocks.get? s.blocks.length
        = ((s.blocks ++ [some (List.replicate newL.size junkByte)]).set s.blocks.length
            (some nb)).get? s.blocks.length := by
      rw [ht]; exact List.get?_set_ne none _ hne
    have e2 : ((s.blocks ++ [some (List.replicate newL.size junkByte)]).set s.blocks.length
        (some nb)).get? s.blocks.length = some (some nb) := by
      rw [List.get?_set_eq_of_lt]
      simp
    unfold MStore.resolveRead
    rw [e1, e2]
    rfl
  have hpres : ∀ i, i < oldL.size → nb.get? i = b.get? i := by
    intro i hi
    exact copyNonoverlapping_get b _ oldL.size i hi hfit
  constructor
  · refine ⟨s.blocks.length, newL.size, _, nb, hgrow, ?_, hpres⟩
    exact hread _ rfl
  · set zb := writeBytes nb oldL.size (newL.size - oldL.size) 0 with hzb
    set sAfter : MStore :=
      ⟨((s.blocks ++ [some (List.replicate newL.size junkByte)]).set s.blocks.length
          (some nb)).set h none, s.avail - newL.size⟩ with hsAfter
    have hzgrow : s.growZeroed h oldL newL =
        some ((s.blocks.length, newL.size), sAfter.writeBlock s.blocks.length zb) := by
      simp only [MStore.growZeroed, hgrow]
      rw [hread sAfter rfl]
    refine ⟨s.blocks.length, newL.size, _, zb, hzgrow, ?_, ?_, ?_⟩
    · have e2 : ((((s.blocks ++ [some (List.replicate newL.size junkByte)]).set s.blocks.length
          (some nb)).set h none).set s.blocks.length (some zb)).get? s.blocks.length
          = some (some zb) := by
        rw [List.get?_set_eq_of_lt]
        simp
      simp only [MStore.writeBlock, MStore.resolveRead, hsAfter]
      rw [e2]
      rfl
    · intro i hi
      have htake : (nb.take oldL.size).length = oldL.size := by
        simp [List.length_take]
        omega
      have : zb.get? i = (nb.take oldL.size).get? i := by
        rw [hzb]
        unfold writeBytes
        rw [List.append_assoc, List.get?_append (by omega)]
      rw [this, List.get?_take hi]
      exact hpres i hi
    · intro i hge hilt
      have htake : (nb.take oldL.size).length = oldL.size := by
        simp [List.length_take]
        omega
      rw [hzb]
      unfold writeBytes
      rw [List.append_assoc, List.get?_append_right (by omega)]
      rw [List.get?_append (by simp [htake]; omega)]
      rw [htake]
      have : i - oldL.size < newL.size - oldL.size := by omega
      simp [List.get?_eq_getElem?, List.getElem?_replicate, this]

theorem store_grow_byte_preservation_witness :
    (MStore.resolveRead ⟨[some [7, 8, 9]], 5⟩ 0 = some [7, 8, 9] ∧
      (2 : Nat) ≤ 3 ∧ (2 : Nat) ≤ 4 ∧ (4 : Nat) ≤ 5) ∧
    ((∃ nh nsz s2 nb,
      MStore.grow ⟨[some [7, 8, 9]], 5⟩ 0 ⟨2, 1⟩ ⟨4, 1⟩ = some ((nh, nsz), s2) ∧
      s2.resolveRead nh = some nb ∧
      (∀ i, i < 2 → nb.get? i = [7, 8, 9].get? i)) ∧
    (∃ nh nsz s3 zb,
      MStore.growZeroed ⟨[some [7, 8, 9]], 5⟩ 0 ⟨2, 1⟩ ⟨4, 1⟩ = some ((nh, nsz), s3) ∧
      s3.resolveRead nh = some zb ∧
      (∀ i, i < 2 → zb.get? i = [7, 8, 9].get? i) ∧
      (∀ i, 2 ≤ i → i < nsz → zb.get? i = some 0))) :=
  ⟨⟨by decide, by decide, by decide, by decide⟩,
    store_grow_byte_preservation ⟨[some [7, 8, 9]], 5⟩ 0 ⟨2, 1⟩ ⟨4, 1⟩
      [7, 8, 9] (by decide) (by decide) (by decide) (by decide)⟩

/-!
## Panics on allocation failure (C9)

`Inner::with_store` (concurrent_vec.rs:324-338) and `NodeHeader::new` /
`NodeHeader::grow` (skip_list.rs:449-567) unwrap their allocation results
with `expect(...)`, so a failing `allocate`/`grow` aborts the program; the
abort is modelled as `Except.error` carrying the `expect` message.  Only
`ConcurrentVec::push` reports a recoverable failure (it returns the rejected
element, see `CVec.push`).
-/

/-- `Inner::with_store(capacity, store)`:
`store.allocate(layout).expect("Successful allocation")`. -/
def innerWithStore (st : MStore) (layoutArr : Layout) (capacity : Nat) :
    Except String ((Nat × Nat) × MStore) :=
  match st.allocate layoutArr with
  | none => .error "Successful allocation"
  | some ((handle, _), st1) => .ok ((handle, capacity), st1)

/-- The allocation step of `NodeHeader::new`:
`storage.allocate(layout).expect("Allocation to succeed.")`. -/
def nodeHeaderNewAlloc (st : MStore) (layout : Layout) : Except String (Nat × MStore) :=
  match st.allocate layout with
  | none => .error "Allocation to succeed."
  | some ((handle, _), st1) => .ok (handle, st1)

/-- The reallocation step of `NodeHeader::grow`:
`storage.grow(handle, old_layout, new_layout).expect("Allocation to succeed")`. -/
def nodeHeaderGrowAlloc (st : MStore) (handle : Nat) (oldL newL : Layout) :
    Except String ((Nat × Nat) × MStore) :=
  match st.grow handle oldL newL with
  | none => .error "Allocation to succeed"
  | some r => .ok r

/-- C9: when the store's `allocate` fails, `ConcurrentVec` construction and
`SkipList` node creation / head growth panic (`expect`), rather than
returning the error; only `ConcurrentVec::push` reports a recoverable
failure, returning the rejected element with the state untouched. -/
theorem allocation_failure_panics (st : MStore) (layoutArr layoutNode : Layout)
    (capacity handle : Nat) (oldL newL : Layout) (T : Type) (s : CVec T) (x : T)
    (hfail : st.allocate layoutArr = none)
    (hfailN : st.allocate layoutNode = none)
    (hfailG : st.grow handle oldL newL = none)
    (hfull : s.length.natAbs > s.cap) :
    innerWithStore st layoutArr capacity = .error "Successful allocation" ∧
    nodeHeaderNewAlloc st layoutNode = .error "Allocation to succeed." ∧
    nodeHeaderGrowAlloc st handle oldL newL = .error "Allocation to succeed" ∧
    s.push x = .full s x := by
  refine ⟨?_, ?_, ?_, ?_⟩
  · simp [innerWithStore, hfail]
  · simp [nodeHeaderNewAlloc, hfailN]
  · simp [nodeHeaderGrowAlloc, hfailG]
  · simp [CVec.push, hfull]

theorem allocation_failure_panics_witness :
    innerWithStore ⟨[], 0⟩ ⟨1, 1⟩ 7 = .error "Successful allocation" ∧
    nodeHeaderNewAlloc ⟨[], 0⟩ ⟨1, 1⟩ = .error "Allocation to succeed." ∧
    nodeHeaderGrowAlloc ⟨[], 0⟩ 0 ⟨1, 1⟩ ⟨2, 1⟩ = .error "Allocation to succeed" ∧
    CVec.push ⟨1, 0, []⟩ (5 : Nat) = .full ⟨1, 0, []⟩ 5 :=
  allocation_failure_panics ⟨[], 0⟩ ⟨1, 1⟩ ⟨1, 1⟩ 7 0 ⟨1, 1⟩ ⟨2, 1⟩ Nat ⟨1, 0, []⟩ 5
    (by decide) (by decide) (by decide) (by decide)

/-!
## Inline store backends: `dangling` (C7) and `shrink` (C10)

`InlineBumpStore<H, T>` (store/inline_bump_store.rs): the handle type `H` is
an offset "convertible to and from `usize`" and is modelled as the offset
itself.  `dangling(alignment)` fails iff `alignment.as_usize() >
layout_of::<T>().align()`, otherwise returns `from_offset(alignment)`;
`resolve(handle)` is `address_of(self.memory) + offset`, and the base address
of the `T`-typed field is a multiple of `align_of::<T>()`.

`InlineSingleStore<T>` (store/inline_single_store.rs): `Handle = ()`,
`dangling(alignment)` succeeds iff `alignment ≤ align_of::<T>()`, `resolve`
returns the address of the single `T`-typed field.
-/

/-- `InlineBumpStore::dangling(alignment)` with the handle modelled as its
`usize` offset. -/
def bumpDangling (alignT alignment : Nat) : Option Nat :=
  if alignment > alignT then none else some alignment

/-- `InlineBumpStore::resolve(handle)`: base address of `self.memory` plus
the handle's offset. -/
def bumpResolve (base handle : Nat) : Nat := base + handle

/-- `InlineSingleStore::dangling(alignment)`. -/
def singleDangling (alignT alignment : Nat) : Option Unit :=
  if alignment ≤ alignT then some () else none

/-- `InlineSingleStore::resolve(_)`: the address of the inline `T` field. -/
def singleResolve (base : Nat) : Nat := base

theorem pow2_le_dvd {j k : Nat} (h : 2 ^ j ≤ 2 ^ k) : (2 : Nat) ^ j ∣ 2 ^ k :=
  pow_dvd_pow 2 ((Nat.pow_le_pow_iff_right (by omega)).mp h)

/-- C7: for both inline backends, whenever `dangling(alignment)` returns
`Ok(handle)`, resolving the handle yields an address that is a multiple of
the requested alignment; and `dangling` returns `Err` exactly when the
requested alignment exceeds the alignment of the backing type `T`.
Alignments are powers of two (`core::ptr::Alignment`), and the inline field
of type `T` sits at an address that is a multiple of `align_of::<T>()`. -/
theorem dangling_handle_alignment (alignT alignment base j k : Nat)
    (hA : alignment = 2 ^ j) (hT : alignT = 2 ^ k) (hbase : alignT ∣ base) :
    ((∀ h, bumpDangling alignT alignment = some h →
        alignment ∣ bumpResolve base h) ∧
      (bumpDangling alignT alignment = none ↔ alignment > alignT)) ∧
    ((singleDangling alignT alignment).isSome →
        alignment ∣ singleResolve base) ∧
    (singleDangling alignT alignment = none ↔ alignment > alignT) := by
  have key : alignment ≤ alignT → alignment ∣ base := by
    intro hle
    exact dvd_trans (by rw [hA, hT]; exact pow2_le_dvd (by rw [← hA, ← hT]; exact hle)) hbase
  refine ⟨⟨?_, ?_⟩, ?_, ?_⟩
  · intro h hh
    unfold bumpDangling at hh
    by_cases hgt : alignment > alignT
    · simp [hgt] at hh
    · simp [hgt] at hh
      subst hh
      exact (Nat.dvd_add_right (key (by omega))).mpr dvd_rfl
  · unfold bumpDangling
    by_cases hgt : alignment > alignT <;> simp [hgt]
  · intro hsome
    unfold singleDangling at hsome
    by_cases hle : alignment ≤ alignT
    · exact key hle
    · simp [hle] at hsome
  · unfold singleDangling
    by_cases hle : alignment ≤ alignT <;> simp [hle] <;> omega

theorem dangling_handle_alignment_witness :
    ((4 : Nat) = 2 ^ 2 ∧ (8 : Nat) = 2 ^ 3 ∧ (8 : Nat) ∣ 64) ∧
    (((∀ h, bumpDangling 8 4 = some h → 4 ∣ bumpResolve 64 h) ∧
      (bumpDangling 8 4 = none ↔ 4 > 8)) ∧
    ((singleDangling 8 4).isSome → 4 ∣ singleResolve 64) ∧
    (singleDangling 8 4 = none ↔ 4 > 8)) :=
  ⟨⟨by decide, by decide, by decide⟩,
    dangling_handle_alignment 8 4 64 2 3 (by decide) (by decide) (by decide)⟩

/-- Debug-build model of `InlineSingleStore::shrink`
(inline_single_store.rs:89-101): the function opens with
`debug_assert!(_new_layout.size() >= _old_layout.size(), "_new_layout must
have a smaller size than _old_layout")`; a failing `debug_assert` aborts a
debug build, modelled as `Except.error`; otherwise `Ok(((), size_of::<T>()))`. -/
def singleShrink (sizeT : Nat) (oldL newL : Layout) : Except String (Unit × Nat) :=
  if newL.size ≥ oldL.size then .ok ((), sizeT)
  else .error "_new_layout must have a smaller size than _old_layout"

/-- Debug-build model of `InlineBumpStore::shrink`
(inline_bump_store.rs:124-136): opens with `debug_assert!(_new_layout.size()
>= old_layout.size(), "... must have a smaller size than ...")`; otherwise
`Ok((handle, old_layout.size()))`. -/
def bumpShrink (handle : Nat) (oldL newL : Layout) : Except String (Nat × Nat) :=
  if newL.size ≥ oldL.size then .ok (handle, oldL.size)
  else .error "must have a smaller size"

/-- C10 (refuting evaluation): the documented `shrink` precondition
`new_layout.size() <= old_layout.size()` holds at `old.size = 8`,
`new.size = 4`, yet the opening `debug_assert` of both inline `shrink`
implementations fails there (its condition is inverted: it demands
`new_layout.size() >= old_layout.size()` while its own message says
"smaller"), so a debug build aborts. -/
theorem inline_shrink_debug_assert_fails :
    ((4 : Nat) ≤ 8) ∧
    singleShrink 16 ⟨8, 1⟩ ⟨4, 1⟩ =
      .error "_new_layout must have a smaller size than _old_layout" ∧
    bumpShrink 0 ⟨8, 1⟩ ⟨4, 1⟩ = .error "must have a smaller size" ∧
    (∀ oldL newL : Layout, newL.size < oldL.size →
      ∀ sizeT handle : Nat,
        (singleShrink sizeT oldL newL).isOk = false ∧
        (bumpShrink handle oldL newL).isOk = false) := by
  refine ⟨by decide, by rfl, by rfl, ?_⟩
  intro oldL newL hlt sizeT handle
  have : ¬ newL.size ≥ oldL.size := by omega
  constructor <;> simp [singleShrink, bumpShrink, this, Except.isOk, Except.toBool]

/-!
## SkipList (src/collection/skip_list.rs)

One heap block per node: a `NodeHeader` (key, value, link count) followed by
`number_links` trailing handles; modelled as a record with a `links` list.
The `Global`-allocator-backed storage is modelled as an append-only heap
list indexed by handles; handle `0` is reserved as the dangling handle
(`TypedHandle::dangling` — resolving it, or a deallocated handle, is
undefined behaviour in the source and `SkErr.ub` here).  The PRNG
(`oorandom::Rand32`, reseeded from the first node's address) is modelled by
an oracle stream: `determine_number_links = (rand_u32() | 1).trailing_ones()`
produces an arbitrary value in `1..=32`, and each insertion on a non-empty
list consumes one oracle value.  An out-of-bounds index into a node's link
array (`node.links_mut()[level]`, skip_list.rs:242) is a Rust panic,
modelled as `SkErr.panicked`.  Loops that would not terminate are cut by a
fuel bound exceeding any chain length (`SkErr.fuelOut`).
-/

abbrev SkHandle := Nat

/-- The dangling handle (`TypedHandle::dangling`): reserved index 0, never
allocated. -/
def skDangling : SkHandle := 0

structure NodeHeader (K V : Type) where
  key : K
  value : V
  links : List SkHandle
deriving DecidableEq

structure SkipList (K V : Type) where
  length : Nat
  head : SkHandle
  heap : List (Option (NodeHeader K V))
  prng : List Nat
deriving DecidableEq

inductive SkErr where
  | panicked
  | ub
  | fuelOut
deriving DecidableEq

/-- A fresh, empty list (`SkipList::with_storage`): `length = 0`, dangling
head; heap slot 0 is the reserved dangling index. -/
def SkipList.emptyList (K V : Type) (prng : List Nat) : SkipList K V :=
  ⟨0, skDangling, [none], prng⟩

/-- `TypedHandle::resolve`: undefined behaviour unless the handle is live. -/
def SkipList.resolve (s : SkipList K V) (h : SkHandle) : Except SkErr (NodeHeader K V) :=
  match s.heap.get? h with
  | some (some n) => .ok n
  | _ => .error .ub

def SkipList.update (s : SkipList K V) (h : SkHandle) (n : NodeHeader K V) : SkipList K V :=
  { s with heap := s.heap.set h (some n) }

/-- `(s.heap.get? h).bind id`: the live node at `h`, if any. -/
def SkipList.lookupNode (s : SkipList K V) (h : SkHandle) : Option (NodeHeader K V) :=
  (s.heap.get? h).bind id

/-- `NodeHeader::new(key, value, number_links, storage)`: one fresh block
holding the header and `number_links` dangling links. -/
def SkipList.allocNode (s : SkipList K V) (key : K) (value : V) (numberLinks : Nat) :
    SkHandle × SkipList K V :=
  (s.heap.length,
    { s with heap := s.heap ++ [some ⟨key, value, List.replicate numberLinks skDangling⟩] })

/-- `NodeHeader::grow(handle, with, old_number_links, new_number_links,
storage)`: `storage.grow` relocates the block (the old handle is
invalidated), `number_links` is raised and the newly added slots are filled
with `with`. -/
def SkipList.growNode (s : SkipList K V) (h withH : SkHandle) (newLinks : Nat) :
    Except SkErr (SkHandle × SkipList K V) := do
  let n ← s.resolve h
  let grown : NodeHeader K V :=
    ⟨n.key, n.value, n.links ++ List.replicate (newLinks - n.links.length) withH⟩
  let s1 : SkipList K V := { s with heap := s.heap.set h none }
  .ok (s1.heap.length, { s1 with heap := s1.heap ++ [some grown] })

/-- Result of the per-level forward walk inside `SkipList::insert`
(skip_list.rs:209-238): either an equal key was found and replaced in place
(the early `return Some((key, value))`), or the walk stopped at `cur` with
the `last` tracker updated. -/
inductive InsWalk (K V : Type) where
  | found (oldKey : K) (oldValue : V) (s : SkipList K V)
  | stopped (cur : SkHandle) (last : Option SkHandle)

variable {K V : Type} [LinearOrder K]

/-- The inner loop of the insert scan at one level: advance while the next
node's key is below the target; record `last` on meeting a zero-link node;
replace in place on an equal key. -/
def SkipList.walkInsert (key : K) (value : V) :
    Nat → SkipList K V → SkHandle → Nat → Option SkHandle → Except SkErr (InsWalk K V)
  | 0, _, _, _, _ => .error .fuelOut
  | fuel + 1, s, cur, level, last => do
    let node ← s.resolve cur
    match node.links.get? level with
    | none => .ok (.stopped cur last)
    | some next => do
      let nextNode ← s.resolve next
      if nextNode.key < key then
        if nextNode.links.length = 0 then
          .ok (.stopped cur (some next))
        else
          SkipList.walkInsert key value fuel s next level last
      else if key = nextNode.key then
        .ok (.found nextNode.key nextNode.value (s.update next ⟨key, value, nextNode.links⟩))
      else
        .ok (.stopped cur last)

/-- Result of the whole descent (skip_list.rs:207-243): early replacement,
or the filled `handles` buffer (per level, the node whose link slot at that
level must be patched) and the final `last`. -/
inductive ScanRes (K V : Type) where
  | replaced (oldKey : K) (oldValue : V) (s : SkipList K V)
  | scanned (handles : Nat → Option SkHandle) (last : Option SkHandle)

/-- The level descent: for each level from `head_links - 1` down to `0`, walk
forward, then record `handles[level] = &mut node.links_mut()[level]` — a
panic (index out of bounds) when the stopping node has at most `level`
links. -/
def SkipList.scanLevels (key : K) (value : V) :
    List Nat → SkipList K V → SkHandle → (Nat → Option SkHandle) → Option SkHandle →
      Except SkErr (ScanRes K V)
  | [], _, _, handles, last => .ok (.scanned handles last)
  | level :: rest, s, cur, handles, last => do
    match ← SkipList.walkInsert key value (s.heap.length + 1) s cur level last with
    | .found k v s1 => .ok (.replaced k v s1)
    | .stopped cur1 last1 => do
      let node ← s.resolve cur1
      if level < node.links.length then
        SkipList.scanLevels key value rest s cur1
          (fun l => if l = level then some cur1 else handles l) last1
      else
        .error .panicked

/-- The splice loop (skip_list.rs:249-260): for each level in the zip of
`handles.take(head_links)` with the new node's link array, replace the
recorded slot with the new handle and copy the slot's previous target into
the new node's link array at that level. -/
def SkipList.splice :
    SkipList K V → (Nat → Option SkHandle) → SkHandle → List Nat → Except SkErr (SkipList K V)
  | s, _, _, [] => .ok s
  | s, handles, newH, level :: rest =>
    match handles level with
    | none => SkipList.splice s handles newH rest
    | some p =>
      match s.resolve p with
      | .error e => .error e
      | .ok pn =>
        match pn.links.get? level with
        | none => .error .ub
        | some old =>
          let s1 := s.update p ⟨pn.key, pn.value, pn.links.set level newH⟩
          match s1.resolve newH with
          | .error e => .error e
          | .ok nn =>
            SkipList.splice (s1.update newH ⟨nn.key, nn.value, nn.links.set level old⟩)
              handles newH rest

/-- `SkipList::insert(key, value)` (skip_list.rs:140-308). -/
def SkipList.insert (s : SkipList K V) (key : K) (value : V) :
    Except SkErr (Option (K × V) × SkipList K V) := do
  if s.length = 0 then
    let (h, s1) := s.allocNode key value 0
    -- the PRNG is reseeded from the first node's resolved address; the
    -- oracle stream already ranges over every possible outcome
    .ok (none, { s1 with head := h, length := 1 })
  else
    let targetLinks := s.prng.headD 1
    let s := { s with prng := s.prng.tail }
    let node ← s.resolve s.head
    let headLinks := node.links.length
    if key < node.key then
      let target := max targetLinks headLinks
      let (h, s1) := s.allocNode key value target
      let s2 := s1.update h ⟨key, value, List.replicate target s.head⟩
      .ok (none, { s2 with head := h, length := s2.length + 1 })
    else if key = node.key then
      .ok (some (node.key, node.value), s.update s.head ⟨key, value, node.links⟩)
    else
      let last0 : Option SkHandle := if headLinks = 0 then some s.head else none
      match ← SkipList.scanLevels key value ((List.range headLinks).reverse) s s.head
          (fun _ => none) last0 with
      | .replaced k v s1 => .ok (some (k, v), s1)
      | .scanned handles last => do
        let (handle, s1) := s.allocNode key value targetLinks
        let s2 ← SkipList.splice s1 handles handle (List.range (min headLinks targetLinks))
        let s3 ← match last with
          | none => Except.ok s2
          | some l => do
            let lastNode ← s2.resolve l
            let newNode ← s2.resolve handle
            let s3 := s2.update l ⟨newNode.key, newNode.value, lastNode.links⟩
            let s4 := s3.update handle ⟨lastNode.key, lastNode.value, newNode.links⟩
            let nn ← s4.resolve handle
            Except.ok (s4.update handle ⟨nn.key, nn.value, List.replicate targetLinks l⟩)
        if headLinks = 0 then
          .ok (none, { s3 with head := handle, length := s3.length + 1 })
        else do
          let s4 ← if targetLinks > headLinks then do
              let (nh, s5) ← s3.growNode s3.head handle targetLinks
              Except.ok { s5 with head := nh }
            else
              Except.ok s3
          .ok (none, { s4 with length := s4.length + 1 })

/-- The inner loop of `get_impl` at one level (skip_list.rs:392-418): unlike
the insert scan it performs no zero-link check before advancing. -/
def SkipList.getWalk (key : K) :
    Nat → SkipList K V → SkHandle → Nat → Except SkErr (V ⊕ SkHandle)
  | 0, _, _, _ => .error .fuelOut
  | fuel + 1, s, cur, level => do
    let node ← s.resolve cur
    match node.links.get? level with
    | none => .ok (.inr cur)
    | some next => do
      let nextNode ← s.resolve next
      if nextNode.key < key then
        SkipList.getWalk key fuel s next level
      else if key = nextNode.key then
        .ok (.inl nextNode.value)
      else
        .ok (.inr cur)

def SkipList.getLevels (key : K) :
    List Nat → SkipList K V → SkHandle → Except SkErr (Option V)
  | [], _, _ => .ok none
  | level :: rest, s, cur => do
    match ← SkipList.getWalk key (s.heap.length + 1) s cur level with
    | .inl v => .ok (some v)
    | .inr cur1 => SkipList.getLevels key rest s cur1

/-- `SkipList::get_impl` (skip_list.rs:365-422). -/
def SkipList.get (s : SkipList K V) (key : K) : Except SkErr (Option V) := do
  if s.length = 0 then
    .ok none
  else do
    let node ← s.resolve s.head
    if key < node.key then
      .ok none
    else if key = node.key then
      .ok (some node.value)
    else
      SkipList.getLevels key ((List.range node.links.length).reverse) s s.head

/-- The deallocation loop of `SkipList::clear` (skip_list.rs:67-108):
`length - 1` hops along `links.get_unchecked(0)` (undefined behaviour on a
zero-link node before the last), then the final deallocation. -/
def SkipList.clearLoop : Nat → SkipList K V → SkHandle → Except SkErr (SkipList K V)
  | 0, s, handle => do
    let _ ← s.resolve handle
    .ok { s with heap := s.heap.set handle none }
  | k + 1, s, handle => do
    let node ← s.resolve handle
    match node.links.get? 0 with
    | none => .error .ub
    | some next =>
      SkipList.clearLoop k { s with heap := s.heap.set handle none } next

/-- `SkipList::clear` (skip_list.rs:67-108): resets `length` first, then
walks the level-0 chain deallocating every node. -/
def SkipList.clear (s : SkipList K V) : Except SkErr (SkipList K V) :=
  if s.length = 0 then .ok s
  else SkipList.clearLoop (s.length - 1) { s with length := 0 } s.head

/-- Running a sequence of insertions, discarding the returned evicted
pairs. -/
def SkipList.insertSeq (s : SkipList K V) :
    List (K × V) → Except SkErr (SkipList K V)
  | [] => .ok s
  | (k, v) :: rest => do
    let (_, s1) ← s.insert k v
    SkipList.insertSeq s1 rest

/-- The live nodes of the heap. -/
def SkipList.liveNodes (s : SkipList K V) : List (NodeHeader K V) :=
  s.heap.filterMap id

/-- The structural invariant claimed for reachable skip lists: (1) every
link stored in a live node leads to a live node whose key is strictly
greater (so chains only terminate at the zero-link node), and (2) every node
except the one with the greatest key has at least one link, while that last
node has exactly zero links. -/
def SkipListInvariant (s : SkipList K V) : Prop :=
  (∀ n ∈ s.liveNodes, ∀ l ∈ n.links, ∃ m ∈ (s.lookupNode l).toList, n.key < m.key) ∧
  (∀ n ∈ s.liveNodes, (n.links = [] ↔ ∀ m ∈ s.liveNodes, m.key ≤ n.key))

/-- The run refuting C1: from the empty list, `insert(5, "5")`,
`insert(3, "3")` drawing 1 link, `insert(1, "1")` drawing 3 links, then
`insert(4, "4")`.  The third insert makes the head a 3-link node whose links
all lead to the 1-link node of key 3; the fourth insert therefore reaches
that node at level 2 and indexes `links_mut()[2]` out of bounds
(skip_list.rs:242). -/
def c1PanicRun : Except SkErr (SkipList Int String) :=
  SkipList.insertSeq (SkipList.emptyList Int String [1, 3, 1])
    [(5, "5"), (3, "3"), (1, "1"), (4, "4")]

/-- The example scenario of C1: `insert(1,"1")` then `insert(0,"0")` (the
second insert drawing 2 links), followed by the four lookups. -/
def c1ExampleRun : Except SkErr (Option String × Option String × Option String × Option String × Nat) := do
  let s ← SkipList.insertSeq (SkipList.emptyList Int String [2]) [(1, "1"), (0, "0")]
  let a ← s.get (-1)
  let b ← s.get 0
  let c ← s.get 1
  let d ← s.get 2
  Except.ok (a, b, c, d, s.length)

/-- C1 (refuting evaluation): an insert sequence reachable with positive
probability panics inside `insert` (out-of-bounds link index), so the
get/insert consistency cannot hold for every sequence; the concrete example
scenario of the claim does hold. -/
theorem skipList_get_insert_panics :
    c1PanicRun = .error .panicked ∧
    c1ExampleRun = .ok (none, some "0", some "1", none, 2) := by
  constructor
  · rfl
  · rfl

/-- The run refuting C4: `insert(1, "1")`, `insert(5, "5")` drawing 1 link,
`insert(3, "3")` drawing 3 links.  The final insert leaves the middle node
with dangling links at levels 1 and 2 while the head links to it at those
levels. -/
def c4Run : Except SkErr (SkipList Int String) :=
  SkipList.insertSeq (SkipList.emptyList Int String [1, 3]) [(1, "1"), (5, "5"), (3, "3")]

/-- The state produced by `c4Run`. -/
def c4State : SkipList Int String :=
  ⟨3, 4,
    [none, some ⟨5, "5", []⟩, none, some ⟨3, "3", [1, 0, 0]⟩, some ⟨1, "1", [3, 3, 3]⟩],
    []⟩

/-- C4 (refuting evaluation): a state reachable by three completed inserts
violates the claimed structural invariant — the node of key 3 stores the
dangling handle 0 at levels 1 and 2, so following the head's level-1 chain
never lands on the zero-link node. -/
theorem skipList_invariant_violated :
    c4Run = .ok c4State ∧ ¬ SkipListInvariant c4State := by
  constructor
  · rfl
  · intro hinv
    have h3 : (⟨3, "3", [1, 0, 0]⟩ : NodeHeader Int String) ∈ c4State.liveNodes := by
      decide
    have h0 : (0 : SkHandle) ∈ (⟨3, "3", [1, 0, 0]⟩ : NodeHeader Int String).links := by
      decide
    obtain ⟨m, hm, _⟩ := hinv.1 _ h3 _ h0
    have hnone : c4State.lookupNode 0 = none := by decide
    rw [hnone] at hm
    simp at hm

/-- The run refuting C5: `insert(1, "1")`, `insert(5, "5")` drawing 2 links,
`insert(3, "3")` drawing 1 link.  The final insert splices a 1-link node
below a 2-level head: the zip of `handles.take(head_links)` with the new
node's link array stops at the new node's single level, so the head's
level-1 slot is left unpatched. -/
def c5Run : Except SkErr (SkipList Int String) :=
  SkipList.insertSeq (SkipList.emptyList Int String [2, 1]) [(1, "1"), (5, "5"), (3, "3")]

/-- The state produced by `c5Run`: the new node of the third insert is
handle 3; the head (handle 2) has `links = [3, 1]`. -/
def c5State : SkipList Int String :=
  ⟨3, 2,
    [none, some ⟨5, "5", []⟩, some ⟨1, "1", [3, 1]⟩, some ⟨3, "3", [1]⟩],
    []⟩

/-- C5 (refuting evaluation): in `c5Run` the third insert splices new node 3
(key 3 > head key 1, key not present) while `head.levels = 2`, yet the
preceding node's slot at level 1 — the head's `links[1]` — still holds
handle 1 (the tail), not the new node: the splice loop only patches levels
below `min(head.levels, target_levels)`. -/
theorem skipList_splice_level_unpatched :
    c5Run = .ok c5State ∧
    c5State.lookupNode 2 = some ⟨1, "1", [3, 1]⟩ ∧
    (⟨1, "1", [3, 1]⟩ : NodeHeader Int String).links.get? 1 = some 1 ∧
    (1 : SkHandle) ≠ 3 := by
  refine ⟨rfl, rfl, by decide, by decide⟩

/-- The value of the link slot at level `l` of the node at `p`. -/
def SkipList.slotVal (s : SkipList K V) (p : SkHandle) (l : Nat) : Option SkHandle :=
  (s.lookupNode p).bind (fun n => n.links.get? l)

/-- Key, value and link count of the node at `q` — everything about the node
except the link values. -/
def SkipList.nodeShape (s : SkipList K V) (q : SkHandle) : Option (K × V × Nat) :=
  (s.lookupNode q).map (fun n => (n.key, n.value, n.links.length))

theorem SkipList.lookupNode_lt (s : SkipList K V) (p : SkHandle) (n : NodeHeader K V)
    (hn : s.lookupNode p = some n) : p < s.heap.length := by
  by_contra hge
  have hnone : s.heap.get? p = none := List.get?_eq_none.mpr (Nat.le_of_not_lt hge)
  unfold SkipList.lookupNode at hn
  rw [hnone] at hn
  simp at hn

theorem SkipList.lookupNode_get (s : SkipList K V) (p : SkHandle) (n : NodeHeader K V)
    (hn : s.lookupNode p = some n) : s.heap.get? p = some (some n) := by
  unfold SkipList.lookupNode at hn
  rcases ho : s.heap.get? p with _ | o
  · rw [ho] at hn
    simp at hn
  · rw [ho] at hn
    rcases o with _ | m
    · simp at hn
    · simp at hn
      rw [hn]

theorem SkipList.resolve_of_lookup (s : SkipList K V) (p : SkHandle) (n : NodeHeader K V)
    (hn : s.lookupNode p = some n) : s.resolve p = .ok n := by
  unfold SkipList.resolve
  rw [s.lookupNode_get p n hn]

theorem SkipList.lookupNode_update_self (s : SkipList K V) (p : SkHandle)
    (n : NodeHeader K V) (hp : p < s.heap.length) :
    (s.update p n).lookupNode p = some n := by
  unfold SkipList.lookupNode SkipList.update
  rw [List.get?_set_eq_of_lt _ (by simpa using hp)]
  rfl

theorem SkipList.lookupNode_update_other (s : SkipList K V) (p q : SkHandle)
    (n : NodeHeader K V) (h : q ≠ p) :
    (s.update p n).lookupNode q = s.lookupNode q := by
  unfold SkipList.lookupNode SkipList.update
  rw [List.get?_set_ne _ _ (fun e => h e.symm)]

theorem SkipList.slotVal_of_lookup (s : SkipList K V) (p : SkHandle) (n : NodeHeader K V)
    (hn : s.lookupNode p = some n) (l : Nat) : s.slotVal p l = n.links.get? l := by
  unfold SkipList.slotVal
  rw [hn]
  rfl

/-- Full characterisation of the splice loop (skip_list.rs:249-260): given
that every recorded predecessor is live with a slot at its level, and that
the new node is live with at least as many links, the loop (1) never fails,
(2) changes no key, value or link count, (3) at every processed level with a
recorded predecessor stores the new handle in that predecessor's slot and
the slot's previous target in the new node's link array, and (4) leaves all
slots at unprocessed levels, and all slots of untouched nodes, unchanged. -/
theorem SkipList.splice_spec (newH : SkHandle) (handles : Nat → Option SkHandle) :
    ∀ (L : List Nat) (s : SkipList K V),
    L.Nodup →
    (∀ l ∈ L, ∀ p, handles l = some p → p ≠ newH ∧
        ∃ pn, s.lookupNode p = some pn ∧ l < pn.links.length) →
    (∃ nn, s.lookupNode newH = some nn ∧ ∀ l ∈ L, l < nn.links.length) →
    ∃ s2, SkipList.splice s handles newH L = .ok s2 ∧
      (∀ q, s2.nodeShape q = s.nodeShape q) ∧
      (∀ l ∈ L, ∀ p, handles l = some p →
        s2.slotVal p l = some newH ∧ s2.slotVal newH l = s.slotVal p l) ∧
      (∀ q l, l ∉ L → s2.slotVal q l = s.slotVal q l) ∧
      (∀ q l, handles l ≠ some q → q ≠ newH → s2.slotVal q l = s.slotVal q l) := by
  intro L
  induction L with
  | nil =>
    intro s _ _ _
    exact ⟨s, rfl, fun q => rfl, by simp, fun q l _ => rfl, fun q l _ _ => rfl⟩
  | cons level rest ih =>
    intro s hnd hpre hnn
    have hndr : rest.Nodup := hnd.of_cons
    have hlevel : level ∉ rest := by
      simp [List.nodup_cons] at hnd
      exact hnd.1
    rcases hp : handles level with _ | p
    · -- no recorded predecessor at this level
      obtain ⟨s2, hs2, hshape, hmem, hfr1, hfr2⟩ := ih s hndr
        (fun l hl => hpre l (List.mem_cons_of_mem _ hl))
        (hnn.imp fun nn h => ⟨h.1, fun l hl => h.2 l (List.mem_cons_of_mem _ hl)⟩)
      refine ⟨s2, ?_, hshape, ?_, ?_, hfr2⟩
      · unfold SkipList.splice
        rw [hp]
        exact hs2
      · intro l hl q hq
        rcases List.mem_cons.mp hl with he | hm
        · rw [he, hp] at hq
          exact absurd hq (by simp)
        · exact hmem l hm q hq
      · intro q l hl
        exact hfr1 q l (fun hm => hl (List.mem_cons_of_mem _ hm))
    · -- a predecessor slot is patched at this level
      obtain ⟨hpne, pn, hpn, hplen⟩ := hpre level (List.mem_cons_self _ _) p hp
      obtain ⟨n0, hn0, hn0len⟩ := hnn
      have hlevn0 : level < n0.links.length := hn0len level (List.mem_cons_self _ _)
      obtain ⟨old, hold⟩ : ∃ old, pn.links.get? level = some old :=
        Option.isSome_iff_exists.mp (by rw [List.get?_eq_getElem?]; simp [hplen])
      have hplt := s.lookupNode_lt p pn hpn
      set s1 := s.update p ⟨pn.key, pn.value, pn.links.set level newH⟩ with hs1
      have hlook1p : s1.lookupNode p = some ⟨pn.key, pn.value, pn.links.set level newH⟩ :=
        s.lookupNode_update_self p _ hplt
      have hlook1n : s1.lookupNode newH = some n0 := by
        rw [hs1, s.lookupNode_update_other p newH _ (fun e => hpne e.symm), hn0]
      set s2 := s1.update newH ⟨n0.key, n0.value, n0.links.set level old⟩ with hs2def
      have hlook2n : s2.lookupNode newH = some ⟨n0.key, n0.value, n0.links.set level old⟩ :=
        s1.lookupNode_update_self newH _ (s1.lookupNode_lt newH n0 hlook1n)
      have hlook2 : ∀ q, q ≠ p → q ≠ newH → s2.lookupNode q = s.lookupNode q := by
        intro q hqp hqn
        rw [hs2def, s1.lookupNode_update_other newH q _ hqn, hs1,
          s.lookupNode_update_other p q _ hqp]
      have hlook2p : p ≠ newH → s2.lookupNode p = some ⟨pn.key, pn.value, pn.links.set level newH⟩ := by
        intro _
        rw [hs2def, s1.lookupNode_update_other newH p _ hpne, hlook1p]
      have hshape2 : ∀ q, s2.nodeShape q = s.nodeShape q := by
        intro q
        by_cases hqn : q = newH
        · subst hqn
          unfold SkipList.nodeShape
          rw [hlook2n, hn0]
          simp
        · by_cases hqp : q = p
          · subst hqp
            unfold SkipList.nodeShape
            rw [hlook2p hpne, hpn]
            simp
          · unfold SkipList.nodeShape
            rw [hlook2 q hqp hqn]
      have hslot2_ne : ∀ q l, l ≠ level → s2.slotVal q l = s.slotVal q l := by
        intro q l hl
        by_cases hqn : q = newH
        · subst hqn
          rw [s2.slotVal_of_lookup _ _ hlook2n l, s.slotVal_of_lookup _ _ hn0 l]
          exact List.get?_set_ne _ _ (fun e => hl e.symm)
        · by_cases hqp : q = p
          · subst hqp
            rw [s2.slotVal_of_lookup _ _ (hlook2p hpne) l, s.slotVal_of_lookup _ _ hpn l]
            exact List.get?_set_ne _ _ (fun e => hl e.symm)
          · unfold SkipList.slotVal
            rw [hlook2 q hqp hqn]
      have hslot2_untouched : ∀ q l, q ≠ p → q ≠ newH → s2.slotVal q l = s.slotVal q l := by
        intro q l hqp hqn
        unfold SkipList.slotVal
        rw [hlook2 q hqp hqn]
      -- recursive hypotheses on the remaining levels
      obtain ⟨s3, hs3, hshape3, hmem3, hfr1, hfr2⟩ := ih s2 hndr
        (by
          intro l hl q hq
          obtain ⟨hqne, qn, hqn, hqlen⟩ := hpre l (List.mem_cons_of_mem _ hl) q hq
          refine ⟨hqne, ?_⟩
          have := hshape2 q
          unfold SkipList.nodeShape at this
          rw [hqn] at this
          rcases hq2 : s2.lookupNode q with _ | qn2
          · rw [hq2] at this
            simp at this
          · rw [hq2] at this
            simp at this
            exact ⟨qn2, rfl, by omega⟩)
        (by
          refine ⟨⟨n0.key, n0.value, n0.links.set level old⟩, hlook2n, ?_⟩
          intro l hl
          simpa using hn0len l (List.mem_cons_of_mem _ hl))
      have hsplice : SkipList.splice s handles newH (level :: rest) = .ok s3 := by
        have e1 := s.resolve_of_lookup p pn hpn
        have e2 := s1.resolve_of_lookup newH n0 hlook1n
        simp only [SkipList.splice, hp, e1, hold, ← hs1, e2, ← hs2def]
        exact hs3
      refine ⟨s3, hsplice, fun q => (hshape3 q).trans (hshape2 q), ?_, ?_, ?_⟩
      · intro l hl q hq
        rcases List.mem_cons.mp hl with he | hm
        · have hqp : q = p := by
            rw [he, hp] at hq
            exact (Option.some_inj.mp hq).symm
          subst hqp
          rw [he]
          constructor
          · rw [hfr1 q level hlevel, s2.slotVal_of_lookup _ _ (hlook2p hpne) level]
            rw [List.get?_set_eq_of_lt _ hplen]
          · rw [hfr1 newH level hlevel, s2.slotVal_of_lookup _ _ hlook2n level,
              s.slotVal_of_lookup _ _ hpn level, hold]
            rw [List.get?_set_eq_of_lt _ hlevn0]
        · have hlne : l ≠ level := fun e => hlevel (e ▸ hm)
          obtain ⟨ha, hb⟩ := hmem3 l hm q hq
          exact ⟨ha, hb.trans (hslot2_ne q l hlne)⟩
      · intro q l hl
        have hlne : l ≠ level := fun e => hl (e ▸ List.mem_cons_self _ _)
        rw [hfr1 q l (fun hm => hl (List.mem_cons_of_mem _ hm))]
        exact hslot2_ne q l hlne
      · intro q l hq hqn
        rw [hfr2 q l hq hqn]
        by_cases hle : l = level
        · subst hle
          have hqp : q ≠ p := fun e => hq (e ▸ hp)
          exact hslot2_untouched q l hqp hqn
        · exact hslot2_ne q l hle

/-- C5 (amended, proved): when a new node is spliced in, the splice loop
patches exactly the levels below `min(head.levels, target_levels)` that
carry a recorded predecessor slot — each such slot is replaced by a
reference to the new node and its previous target is copied into the new
node's link array at that level — while every slot at a level at or above
`min(head.levels, target_levels)` (in particular the head's levels
`target_levels .. head.levels - 1` when the new node is shorter) is left
unchanged, and no key, value or link count changes. -/
theorem skipList_splice_patched_levels (s : SkipList K V)
    (handles : Nat → Option SkHandle) (newH : SkHandle) (headLinks targetLinks : Nat)
    (hpre : ∀ l, l < min headLinks targetLinks → ∀ p, handles l = some p → p ≠ newH ∧
        ∃ pn, s.lookupNode p = some pn ∧ l < pn.links.length)
    (hnn : ∃ nn, s.lookupNode newH = some nn ∧ targetLinks ≤ nn.links.length) :
    ∃ s2, SkipList.splice s handles newH (List.range (min headLinks targetLinks)) = .ok s2 ∧
      (∀ q, s2.nodeShape q = s.nodeShape q) ∧
      (∀ l, l < min headLinks targetLinks → ∀ p, handles l = some p →
        s2.slotVal p l = some newH ∧ s2.slotVal newH l = s.slotVal p l) ∧
      (∀ q l, min headLinks targetLinks ≤ l → s2.slotVal q l = s.slotVal q l) := by
  obtain ⟨s2, hs2, hshape, hmem, hfr1, _⟩ :=
    SkipList.splice_spec newH handles (List.range (min headLinks targetLinks)) s
      (List.nodup_range _)
      (fun l hl => hpre l (List.mem_range.mp hl))
      (hnn.imp fun nn h =>
        ⟨h.1, fun l hl => lt_of_lt_of_le (lt_of_lt_of_le (List.mem_range.mp hl)
          (min_le_right _ _)) h.2⟩)
  exact ⟨s2, hs2, hshape,
    fun l hl => hmem l (List.mem_range.mpr hl),
    fun q l hl => hfr1 q l (fun hm => by
      have := List.mem_range.mp hm
      omega)⟩

/-- Concrete instance for the witness of `skipList_splice_patched_levels`: a
head of two levels (handle 1) whose level-0 slot is recorded, a zero-link
tail (handle 2 is the new node of one level), splicing new node 2 below the
head at level 0 only. -/
def c5WitnessState : SkipList Int String :=
  ⟨2, 1, [none, some ⟨1, "a", [0, 0]⟩, some ⟨3, "c", [0]⟩], []⟩

def c5WitnessHandles : Nat → Option SkHandle :=
  fun l => if l = 0 then some 1 else none

theorem skipList_splice_patched_levels_witness :
    (∀ l, l < min 2 1 → ∀ p, c5WitnessHandles l = some p → p ≠ 2 ∧
        ∃ pn, c5WitnessState.lookupNode p = some pn ∧ l < pn.links.length) ∧
    (∃ nn, c5WitnessState.lookupNode 2 = some nn ∧ 1 ≤ nn.links.length) ∧
    (∃ s2, SkipList.splice c5WitnessState c5WitnessHandles 2 (List.range (min 2 1)) = .ok s2 ∧
      (∀ q, s2.nodeShape q = c5WitnessState.nodeShape q) ∧
      (∀ l, l < min 2 1 → ∀ p, c5WitnessHandles l = some p →
        s2.slotVal p l = some 2 ∧ s2.slotVal 2 l = c5WitnessState.slotVal p l) ∧
      (∀ q l, min 2 1 ≤ l → s2.slotVal q l = c5WitnessState.slotVal q l)) := by
  have hpre : ∀ l, l < min 2 1 → ∀ p, c5WitnessHandles l = some p → p ≠ 2 ∧
      ∃ pn, c5WitnessState.lookupNode p = some pn ∧ l < pn.links.length := by
    intro l hl p hp
    have hl0 : l = 0 := by omega
    subst hl0
    have hp1 : p = 1 := by
      simpa [c5WitnessHandles] using hp.symm
    subst hp1
    exact ⟨by decide, ⟨⟨1, "a", [0, 0]⟩, rfl, by decide⟩⟩
  have hnn : ∃ nn, c5WitnessState.lookupNode 2 = some nn ∧ 1 ≤ nn.links.length :=
    ⟨⟨3, "c", [0]⟩, rfl, by decide⟩
  exact ⟨hpre, hnn,
    skipList_splice_patched_levels c5WitnessState c5WitnessHandles 2 2 1 hpre hnn⟩

/-!
## ConcurrentVec under concurrent pushes (C8)

`push` from several threads is modelled as a transition system over a
sequentially consistent interleaving of the source's atomic operations
(the `AtomicIsize` load / compare-exchange / store of
concurrent_vec.rs:135-189; the C11 Acquire/Release orderings of the source
exist precisely to make the SC reasoning below sound for the data they
publish).  Each thread holds the queue of values it still has to push and is
in one of four states:

- `idle pending`: between `push` calls (or spinning on a negative or changed
  `length`, which leaves the shared state unchanged);
- `locked n v pending`: its `compare_exchange_weak(n, -n)` succeeded, so the
  capacity check passed for `n` (`n ≤ capacity`, `n > 0`) and slot `n - 1`
  is owned, `v` still to be written;
- `written n pending`: the slot write `ptr::write(slot, v)` is done, the
  Release store of `n + 1` is still pending;
- `failed v pending`: its `push` returned `Err(v)` after observing
  `length.unsigned_abs() > capacity` (proved unreachable when the capacity
  equals the total number of pushes).
-/

inductive TState (V : Type) where
  | idle (pending : List V)
  | locked (n : Nat) (v : V) (pending : List V)
  | written (n : Nat) (pending : List V)
  | failed (v : V) (pending : List V)
deriving DecidableEq

structure CCVec (V : Type) where
  length : Int
  cap : Nat
  slots : List (Option V)
  threads : List (TState V)
deriving DecidableEq

/-- The initial state: a fresh vector (`length = 1`, uninitialized slots) and
one idle thread per queue. -/
def initCC (V : Type) (cap : Nat) (queues : List (List V)) : CCVec V :=
  ⟨1, cap, List.replicate cap none, queues.map .idle⟩

/-- One interleaved atomic step of some thread's `push` loop.  Failed CAS
attempts and spins re-read `length` and change nothing, so they are not
steps.  (A CAS at `length = 0` is absent: `length` is never 0, see the
`Free`/`Writer` cases of `CInv`.) -/
inductive CStep : CCVec V → CCVec V → Prop where
  | acquire (s : CCVec V) (i : Nat) (v : V) (rest : List V) (n : Nat)
      (ht : s.threads.get? i = some (.idle (v :: rest)))
      (hl : s.length = (n : Int)) (hn : 0 < n) (hcap : n ≤ s.cap) :
      CStep s { s with length := -(n : Int), threads := s.threads.set i (.locked n v rest) }
  | fullErr (s : CCVec V) (i : Nat) (v : V) (rest : List V)
      (ht : s.threads.get? i = some (.idle (v :: rest)))
      (hcap : s.length.natAbs > s.cap) :
      CStep s { s with threads := s.threads.set i (.failed v rest) }
  | write (s : CCVec V) (i : Nat) (n : Nat) (v : V) (rest : List V)
      (ht : s.threads.get? i = some (.locked n v rest)) :
      CStep s { s with slots := s.slots.set (n - 1) (some v),
                       threads := s.threads.set i (.written n rest) }
  | release (s : CCVec V) (i : Nat) (n : Nat) (rest : List V)
      (ht : s.threads.get? i = some (.written n rest)) :
      CStep s { s with length := (n : Int) + 1, threads := s.threads.set i (.idle rest) }

/-- The values a thread still owes to the vector: its pending queue, plus
the in-flight value while it holds the lock but has not yet written. -/
def TState.load : TState V → Multiset V
  | .idle p => (p : Multiset V)
  | .locked _ v p => v ::ₘ (p : Multiset V)
  | .written _ p => (p : Multiset V)
  | .failed v p => v ::ₘ (p : Multiset V)

/-- The `n` of a thread currently holding the tail slot, if any. -/
def TState.writerAt : TState V → Option Nat
  | .locked n _ _ => some n
  | .written n _ => some n
  | _ => none

def loadSum (ts : List (TState V)) : Multiset V :=
  (ts.map TState.load).sum

/-- The multiset of initialized values among the first `m` slots. -/
def CCVec.slotsPref (s : CCVec V) (m : Nat) : Multiset V :=
  ((s.slots.take m).filterMap id : List V)

/-- The first `m` slots are initialized. -/
def CCVec.filled (s : CCVec V) (m : Nat) : Prop :=
  ∀ j, j < m → ∃ v, s.slots.get? j = some (some v)

theorem loadSum_cons (hd : TState V) (tl : List (TState V)) :
    loadSum (hd :: tl) = hd.load + loadSum tl := by
  simp [loadSum]

theorem loadSum_set (ts : List (TState V)) (i : Nat) (t t1 : TState V)
    (ht : ts.get? i = some t) :
    loadSum (ts.set i t1) + t.load = loadSum ts + t1.load := by
  induction ts generalizing i with
  | nil => simp at ht
  | cons hd tl ih =>
    rcases i with _ | j
    · simp at ht
      subst ht
      rw [List.set_cons_zero, loadSum_cons, loadSum_cons]
      abel
    · rw [List.get?_cons_succ] at ht
      rw [List.set_cons_succ, loadSum_cons, loadSum_cons, add_assoc, ih j ht, add_assoc]

theorem load_le_loadSum (ts : List (TState V)) (i : Nat) (t : TState V)
    (ht : ts.get? i = some t) : t.load ≤ loadSum ts := by
  induction ts generalizing i with
  | nil => simp at ht
  | cons hd tl ih =>
    rcases i with _ | j
    · simp at ht
      subst ht
      rw [loadSum_cons]
      exact Multiset.le_add_right _ _
    · rw [List.get?_cons_succ] at ht
      rw [loadSum_cons]
      exact le_add_of_nonneg_of_le (Multiset.zero_le _) (ih j ht)

theorem get?_some_lt (l : List α) (i : Nat) (a : α) (h : l.get? i = some a) :
    i < l.length := by
  by_contra hge
  rw [List.get?_eq_none.mpr (Nat.le_of_not_lt hge)] at h
  simp at h

theorem take_set_self (l : List α) (k : Nat) (x : α) :
    (l.set k x).take k = l.take k := by
  induction l generalizing k with
  | nil => simp
  | cons hd tl ih =>
    rcases k with _ | j
    · simp
    · simp [List.set_cons_succ, List.take_succ_cons, ih]

theorem take_succ_set (l : List α) (k : Nat) (x : α) (h : k < l.length) :
    (l.set k x).take (k + 1) = l.take k ++ [x] := by
  induction l generalizing k with
  | nil => simp at h
  | cons hd tl ih =>
    rcases k with _ | j
    · simp
    · simp at h
      simp [List.set_cons_succ, List.take_succ_cons, ih j h]

theorem filterMap_id_length_of_all_some (l : List (Option α))
    (h : ∀ j, j < l.length → ∃ v, l.get? j = some (some v)) :
    (l.filterMap id).length = l.length := by
  induction l with
  | nil => simp
  | cons hd tl ih =>
    obtain ⟨v, hv⟩ := h 0 (by simp)
    rw [List.get?_cons_zero] at hv
    have hhd : hd = some v := by simpa using hv
    subst hhd
    rw [List.filterMap_cons]
    simp only [id_def]
    have := ih (fun j hj => by
      obtain ⟨w, hw⟩ := h (j + 1) (by simp; omega)
      rw [List.get?_cons_succ] at hw
      exact ⟨w, hw⟩)
    simp [this]

theorem card_slotsPref (s : CCVec V) (k : Nat) (hf : s.filled k)
    (hk : k ≤ s.slots.length) : Multiset.card (s.slotsPref k) = k := by
  unfold CCVec.slotsPref
  rw [Multiset.coe_card]
  rw [filterMap_id_length_of_all_some]
  · simp [List.length_take]
    omega
  · intro j hj
    have hjk : j < k := by
      simp [List.length_take] at hj
      omega
    obtain ⟨v, hv⟩ := hf j hjk
    exact ⟨v, by rw [List.get?_take hjk, hv]⟩

theorem card_queue_sum (Q : List (List V)) :
    Multiset.card ((Q.map Multiset.ofList).sum) = (Q.map List.length).sum := by
  induction Q with
  | nil => simp
  | cons q rest ih =>
    rw [List.map_cons, List.sum_cons, Multiset.card_add, ih, List.map_cons, List.sum_cons,
      Multiset.coe_card]

theorem loadSum_init (Q : List (List V)) :
    loadSum (Q.map TState.idle) = (Q.map Multiset.ofList).sum := by
  induction Q with
  | nil => rfl
  | cons q rest ih =>
    rw [List.map_cons, loadSum_cons, List.map_cons, List.sum_cons, ih]
    rfl

/-- The inductive invariant of the concurrent push system, for a vector of
capacity `c` and a conserved total multiset `total` of values (slots so far
plus everything still owed by the threads).  `length` is either `k + 1` with
no writer (`k` elements published), or `-(k + 1)` with exactly one thread
holding the tail slot `k`. -/
def CInv (c : Nat) (total : Multiset V) (s : CCVec V) : Prop :=
  s.cap = c ∧ s.slots.length = c ∧
  (∀ i t, s.threads.get? i = some t → ∀ v p, t ≠ .failed v p) ∧
  ((∃ k : Nat, s.length = (k : Int) + 1 ∧ k ≤ c ∧
      (∀ i t, s.threads.get? i = some t → t.writerAt = none) ∧
      s.filled k ∧ s.slotsPref k + loadSum s.threads = total) ∨
   (∃ k : Nat, s.length = -((k : Int) + 1) ∧ k < c ∧
      (∃ i, (∀ j t, s.threads.get? j = some t → j ≠ i → t.writerAt = none) ∧
        ((∃ v p, s.threads.get? i = some (.locked (k + 1) v p) ∧
            s.filled k ∧ s.slotsPref k + loadSum s.threads = total) ∨
         (∃ p, s.threads.get? i = some (.written (k + 1) p) ∧
            s.filled (k + 1) ∧ s.slotsPref (k + 1) + loadSum s.threads = total)))))

theorem CInv_init (c : Nat) (Q : List (List V)) :
    CInv c ((Q.map Multiset.ofList).sum) (initCC V c Q) := by
  refine ⟨rfl, by simp [initCC], ?_, Or.inl ⟨0, rfl, Nat.zero_le c, ?_, ?_, ?_⟩⟩
  · intro i t ht v p
    rw [show (initCC V c Q).threads = Q.map TState.idle from rfl, List.get?_map] at ht
    rcases hq : Q.get? i with _ | q
    · rw [hq] at ht
      simp at ht
    · rw [hq] at ht
      simp at ht
      rw [← ht]
      simp
  · intro i t ht
    rw [show (initCC V c Q).threads = Q.map TState.idle from rfl, List.get?_map] at ht
    rcases hq : Q.get? i with _ | q
    · rw [hq] at ht
      simp at ht
    · rw [hq] at ht
      simp at ht
      rw [← ht]
      rfl
  · intro j hj
    omega
  · rw [show (initCC V c Q).threads = Q.map TState.idle from rfl, loadSum_init]
    have : (initCC V c Q).slotsPref 0 = 0 := by
      unfold CCVec.slotsPref
      simp
    rw [this, zero_add]

theorem CInv_step (c : Nat) (total : Multiset V) (hc : Multiset.card total = c)
    {s s1 : CCVec V} (hst : CStep s s1) (hinv : CInv c total s) : CInv c total s1 := by
  obtain ⟨hcap, hslen, hnofail, hcases⟩ := hinv
  cases hst with
  | acquire i v rest n ht hl hn hcapn =>
    have hilt : i < s.threads.length := get?_some_lt _ i _ ht
    rcases hcases with ⟨k, hk, _, hw, hf, heq⟩ | ⟨k, hk, _, _⟩
    · -- free: the CAS succeeds, the thread takes the lock on slot k = n - 1
      have hkn : n = k + 1 := by
        rw [hk] at hl
        omega
      subst hkn
      refine ⟨hcap, hslen, ?_, Or.inr ⟨k, ?_, ?_, ⟨i, ?_, Or.inl ⟨v, rest, ?_, hf, ?_⟩⟩⟩⟩
      · intro j t htj v1 p1
        by_cases hj : j = i
        · subst hj
          rw [List.get?_set_eq_of_lt _ hilt] at htj
          have : t = TState.locked (k + 1) v rest := by simpa using htj.symm
          rw [this]
          simp
        · rw [List.get?_set_ne _ _ (fun e => hj e.symm)] at htj
          exact hnofail j t htj v1 p1
      · show -(((k : Nat) + 1 : Nat) : Int) = -((k : Int) + 1)
        push_cast
        ring
      · omega
      · intro j t htj hj
        rw [List.get?_set_ne _ _ (fun e => hj e.symm)] at htj
        exact hw j t htj
      · show (s.threads.set i (TState.locked (k + 1) v rest)).get? i
          = some (TState.locked (k + 1) v rest)
        exact List.get?_set_eq_of_lt _ hilt
      · have hcancel := loadSum_set s.threads i _ (TState.locked (k + 1) v rest) ht
        have hload : (TState.idle (v :: rest) : TState V).load
            = (TState.locked (k + 1) v rest : TState V).load := by
          simp [TState.load]
        rw [hload] at hcancel
        have : loadSum (s.threads.set i (TState.locked (k + 1) v rest)) = loadSum s.threads :=
          add_right_cancel hcancel
        show (⟨-(((k : Nat) + 1 : Nat) : Int), s.cap, s.slots,
            s.threads.set i (TState.locked (k + 1) v rest)⟩ : CCVec V).slotsPref k
            + loadSum (s.threads.set i (TState.locked (k + 1) v rest)) = total
        rw [this]
        exact heq
    · -- a writer is active: length is negative, the CAS cannot have succeeded
      rw [hk] at hl
      omega
  | fullErr i v rest ht hcapf =>
    exfalso
    rcases hcases with ⟨k, hk, hkc, _, hf, heq⟩ | ⟨k, hk, hkc, _⟩
    · have hkc2 : k = c := by
        rw [hk] at hcapf
        rw [hcap] at hcapf
        omega
      subst hkc2
      have hcardp : Multiset.card (s.slotsPref k) = k :=
        card_slotsPref s k hf (by omega)
      have h0 : Multiset.card (loadSum s.threads) = 0 := by
        have := congrArg Multiset.card heq
        rw [Multiset.card_add, hcardp, hc] at this
        omega
      have hz : loadSum s.threads = 0 := Multiset.card_eq_zero.mp h0
      have hle := load_le_loadSum s.threads i _ ht
      rw [hz] at hle
      have : (TState.idle (v :: rest) : TState V).load = 0 := Multiset.le_zero.mp hle
      simp [TState.load] at this
    · rw [hk] at hcapf
      rw [hcap] at hcapf
      omega
  | write i n v rest ht =>
    have hilt : i < s.threads.length := get?_some_lt _ i _ ht
    rcases hcases with ⟨k, hk, hkc, hw, hf, heq⟩ | ⟨k, hk, hkc, ⟨i0, hu, hwcase⟩⟩
    · have := hw i _ ht
      simp [TState.writerAt] at this
    · have hii0 : i = i0 := by
        by_contra hne
        have := hu i _ ht hne
        simp [TState.writerAt] at this
      subst hii0
      rcases hwcase with ⟨v0, p0, hti, hf, heq⟩ | ⟨p0, hti, _, _⟩
      · rw [ht] at hti
        have hlk : TState.locked n v rest = TState.locked (k + 1) v0 p0 := by
          simpa using hti
        obtain ⟨hn1, hv1, hp1⟩ : n = k + 1 ∧ v = v0 ∧ rest = p0 := by
          cases hlk
          exact ⟨rfl, rfl, rfl⟩
        subst hn1
        subst hv1
        subst hp1
        have hkc3 : k < s.slots.length := by omega
        refine ⟨hcap, by simpa using hslen, ?_,
          Or.inr ⟨k, hk, hkc, ⟨i, ?_, Or.inr ⟨rest, ?_, ?_, ?_⟩⟩⟩⟩
        · intro j t htj v1 p1
          by_cases hj : j = i
          · subst hj
            rw [List.get?_set_eq_of_lt _ hilt] at htj
            have : t = TState.written (k + 1) rest := by simpa using htj.symm
            rw [this]
            simp
          · rw [List.get?_set_ne _ _ (fun e => hj e.symm)] at htj
            exact hnofail j t htj v1 p1
        · intro j t htj hj
          rw [List.get?_set_ne _ _ (fun e => hj e.symm)] at htj
          exact hu j t htj hj
        · show (s.threads.set i (TState.written (k + 1) rest)).get? i
            = some (TState.written (k + 1) rest)
          exact List.get?_set_eq_of_lt _ hilt
        · intro j hj
          show ∃ w, (s.slots.set (k + 1 - 1) (some v)).get? j = some (some w)
          have hk1 : k + 1 - 1 = k := by omega
          rw [hk1]
          by_cases hjk : j = k
          · subst hjk
            exact ⟨v, List.get?_set_eq_of_lt _ hkc3⟩
          · obtain ⟨w, hwj⟩ := hf j (by omega)
            exact ⟨w, by rw [List.get?_set_ne _ _ (fun e => hjk e.symm)]; exact hwj⟩
        · have hk1 : k + 1 - 1 = k := by omega
          have hpref : ((⟨s.length, s.cap, s.slots.set (k + 1 - 1) (some v),
              s.threads.set i (TState.written (k + 1) rest)⟩ : CCVec V)).slotsPref (k + 1)
              = s.slotsPref k + {v} := by
            unfold CCVec.slotsPref
            show ((((s.slots.set (k + 1 - 1) (some v)).take (k + 1)).filterMap id : List V)
              : Multiset V) = _
            rw [hk1, take_succ_set s.slots k (some v) hkc3, List.filterMap_append]
            rw [← Multiset.coe_add]
            simp
          have hcancel := loadSum_set s.threads i _ (TState.written (k + 1) rest) ht
          have hload : (TState.locked (k + 1) v rest : TState V).load
              = (TState.written (k + 1) rest : TState V).load + {v} := by
            show v ::ₘ (rest : Multiset V) = (rest : Multiset V) + {v}
            rw [← Multiset.singleton_add, add_comm]
          rw [hload] at hcancel
          have hsum : loadSum (s.threads.set i (TState.written (k + 1) rest)) + {v}
              = loadSum s.threads := by
            have h2 : (loadSum (s.threads.set i (TState.written (k + 1) rest)) + {v})
                + (TState.written (k + 1) rest : TState V).load
                = loadSum s.threads + (TState.written (k + 1) rest : TState V).load := by
              rw [← hcancel]
              abel
            exact add_right_cancel h2
          show (⟨s.length, s.cap, s.slots.set (k + 1 - 1) (some v),
              s.threads.set i (TState.written (k + 1) rest)⟩ : CCVec V).slotsPref (k + 1)
              + loadSum (s.threads.set i (TState.written (k + 1) rest)) = total
          rw [hpref, ← heq, ← hsum]
          abel
      · rw [ht] at hti
        simp at hti
  | release i n rest ht =>
    have hilt : i < s.threads.length := get?_some_lt _ i _ ht
    rcases hcases with ⟨k, hk, hkc, hw, hf, heq⟩ | ⟨k, hk, hkc, ⟨i0, hu, hwcase⟩⟩
    · have := hw i _ ht
      simp [TState.writerAt] at this
    · have hii0 : i = i0 := by
        by_contra hne
        have := hu i _ ht hne
        simp [TState.writerAt] at this
      subst hii0
      rcases hwcase with ⟨v0, p0, hti, _, _⟩ | ⟨p0, hti, hf, heq⟩
      · rw [ht] at hti
        simp at hti
      · rw [ht] at hti
        have hwr : TState.written n rest = TState.written (k + 1) p0 := by
          simpa using hti
        obtain ⟨hn1, hp1⟩ : n = k + 1 ∧ rest = p0 := by
          cases hwr
          exact ⟨rfl, rfl⟩
        subst hn1
        subst hp1
        refine ⟨hcap, hslen, ?_, Or.inl ⟨k + 1, ?_, by omega, ?_, hf, ?_⟩⟩
        · intro j t htj v1 p1
          by_cases hj : j = i
          · subst hj
            rw [List.get?_set_eq_of_lt _ hilt] at htj
            have : t = TState.idle rest := by simpa using htj.symm
            rw [this]
            simp
          · rw [List.get?_set_ne _ _ (fun e => hj e.symm)] at htj
            exact hnofail j t htj v1 p1
        · show (((k : Nat) + 1 : Nat) : Int) + 1 = ((k + 1 : Nat) : Int) + 1
          push_cast
          ring
        · intro j t htj
          by_cases hj : j = i
          · subst hj
            rw [List.get?_set_eq_of_lt _ hilt] at htj
            have : t = TState.idle rest := by simpa using htj.symm
            rw [this]
            rfl
          · rw [List.get?_set_ne _ _ (fun e => hj e.symm)] at htj
            exact hu j t htj hj
        · have hcancel := loadSum_set s.threads i _ (TState.idle rest) ht
          have hload : (TState.written (k + 1) rest : TState V).load
              = (TState.idle rest : TState V).load := by
            simp [TState.load]
          rw [hload] at hcancel
          have : loadSum (s.threads.set i (TState.idle rest)) = loadSum s.threads :=
            add_right_cancel hcancel
          show (⟨((k + 1 : Nat) : Int) + 1, s.cap, s.slots,
              s.threads.set i (TState.idle rest)⟩ : CCVec V).slotsPref (k + 1)
              + loadSum (s.threads.set i (TState.idle rest)) = total
          rw [this]
          exact heq

/-- `ConcurrentVec::len` in the concurrent model. -/
def CCVec.len (s : CCVec V) : Nat := s.length.natAbs - 1

theorem loadSum_zero_of_done (ts : List (TState V))
    (h : ∀ i t, ts.get? i = some t → t = .idle []) : loadSum ts = 0 := by
  induction ts with
  | nil => rfl
  | cons hd tl ih =>
    have h0 := h 0 hd (by rw [List.get?_cons_zero])
    rw [loadSum_cons, h0]
    rw [ih (fun i t hti => h (i + 1) t (by rw [List.get?_cons_succ]; exact hti))]
    rfl

/-- C8: with threads holding arbitrary queues of values whose total count
equals the capacity, every interleaved execution of concurrent pushes never
returns `Err` (no thread ever enters `failed`), and in any final state where
every thread has completed all its pushes, `len()` equals the capacity and
the multiset of stored elements is exactly the union of all pushed values —
no value lost, none duplicated.  The claimed T-threads-times-E-values
scenario is the instance with `Q` of length T, each queue of E distinct
values. -/
theorem concurrentVec_concurrent_push (V : Type) (Q : List (List V)) (c : Nat)
    (hcap : (Q.map List.length).sum = c) (s : CCVec V)
    (hreach : Relation.ReflTransGen CStep (initCC V c Q) s) :
    (∀ i t, s.threads.get? i = some t → ∀ v p, t ≠ TState.failed v p) ∧
    ((∀ i t, s.threads.get? i = some t → t = TState.idle []) →
      s.len = c ∧ s.length = (c : Int) + 1 ∧
      s.slotsPref c = (Q.map Multiset.ofList).sum) := by
  set total := (Q.map Multiset.ofList).sum with htot
  have hc : Multiset.card total = c := by rw [htot, card_queue_sum, hcap]
  have hinv : CInv c total s := by
    induction hreach with
    | refl => exact CInv_init c Q
    | tail hsteps hstep ih => exact CInv_step c total hc hstep ih
  obtain ⟨hcapS, hslen, hnofail, hcases⟩ := hinv
  refine ⟨hnofail, ?_⟩
  intro hdone
  have hz : loadSum s.threads = 0 := loadSum_zero_of_done s.threads hdone
  rcases hcases with ⟨k, hk, hkc, _, hf, heq⟩ | ⟨k, hk, hkc, ⟨i0, _, hwcase⟩⟩
  · rw [hz, add_zero] at heq
    have hcard : Multiset.card (s.slotsPref k) = k := card_slotsPref s k hf (by omega)
    have hkc2 : k = c := by
      rw [heq] at hcard
      omega
    subst hkc2
    refine ⟨?_, hk, heq⟩
    unfold CCVec.len
    rw [hk]
    omega
  · exfalso
    rcases hwcase with ⟨v, p, hti, _, _⟩ | ⟨p, hti, _, _⟩
    · have := hdone i0 _ hti
      simp at this
    · have := hdone i0 _ hti
      simp at this

/-- An explicit two-thread interleaving for the witness: thread 0 pushes 7,
then thread 1 pushes 9, into a vector of capacity 2. -/
def cw0 : CCVec Nat := initCC Nat 2 [[7], [9]]

def cw1 : CCVec Nat := ⟨-1, 2, [none, none], [.locked 1 7 [], .idle [9]]⟩

def cw2 : CCVec Nat := ⟨-1, 2, [some 7, none], [.written 1 [], .idle [9]]⟩

def cw3 : CCVec Nat := ⟨2, 2, [some 7, none], [.idle [], .idle [9]]⟩

def cw4 : CCVec Nat := ⟨-2, 2, [some 7, none], [.idle [], .locked 2 9 []]⟩

def cw5 : CCVec Nat := ⟨-2, 2, [some 7, some 9], [.idle [], .written 2 []]⟩

def cw6 : CCVec Nat := ⟨3, 2, [some 7, some 9], [.idle [], .idle []]⟩

theorem cwReach : Relation.ReflTransGen CStep cw0 cw6 := by
  have h1 : CStep cw0 cw1 :=
    CStep.acquire cw0 0 7 [] 1 (by decide) (by decide) (by decide) (by decide)
  have h2 : CStep cw1 cw2 := CStep.write cw1 0 1 7 [] (by decide)
  have h3 : CStep cw2 cw3 := CStep.release cw2 0 1 [] (by decide)
  have h4 : CStep cw3 cw4 :=
    CStep.acquire cw3 1 9 [] 2 (by decide) (by decide) (by decide) (by decide)
  have h5 : CStep cw4 cw5 := CStep.write cw4 1 2 9 [] (by decide)
  have h6 : CStep cw5 cw6 := CStep.release cw5 1 2 [] (by decide)
  exact .tail (.tail (.tail (.tail (.tail (.tail .refl h1) h2) h3) h4) h5) h6

theorem concurrentVec_concurrent_push_witness :
    (([[7], [9]] : List (List Nat)).map List.length).sum = 2 ∧
    ((∀ i t, cw6.threads.get? i = some t → ∀ v p, t ≠ TState.failed v p) ∧
      ((∀ i t, cw6.threads.get? i = some t → t = TState.idle []) →
        cw6.len = 2 ∧ cw6.length = (2 : Int) + 1 ∧
        cw6.slotsPref 2 = (([[7], [9]] : List (List Nat)).map Multiset.ofList).sum)) :=
  ⟨by decide, concurrentVec_concurrent_push Nat [[7], [9]] 2 (by decide) cw6 cwReach⟩

end Storage
